import Mathlib

/-!
Verification of `toylib::fixed_mem_pool` (src/include/FixedMemPool.hpp).

Shallow embedding. Memory addresses are natural numbers (`nullptr` is
`Option.none`). A pool state carries:
* `chunks` — the base addresses of the buffers held in `chunks_`, in push order;
* `head`   — the free-list head pointer `head_`;
* `next`   — the contents of the embedded `next_` field at each node address
  (the bytes of a free slot reinterpreted as `mem_node`);
* `fresh`  — the next address the heap hands out: `new char[chunk_size]` /
  `std::make_unique<char[]>(chunk_size)` is modelled as the bump allocation of
  the byte range `[fresh, fresh + chunk_size)`, which is disjoint from every
  previously allocated range.

The template parameters `item_size` and `chunk_size` are the `Nat` arguments
`isz` and `csz` of each operation; `csz / isz` is C++ `chunk_size / item_size`
(both floor division).
-/

namespace toylib

/-- Store value `v` into the `next_` field of the `mem_node` at address `a`
(C++ `node->next_ = v`). -/
def setNext (mem : Nat → Option Nat) (a : Nat) (v : Option Nat) : Nat → Option Nat :=
  fun x => if x = a then v else mem x

/-- State of a `fixed_mem_pool` object together with the part of the heap it
owns (see the file header for the meaning of the fields). -/
structure Pool where
  chunks : List Nat
  head : Option Nat
  next : Nat → Option Nat
  fresh : Nat

/-- Perform a sequence of `next_`-field stores in program order (later stores
overwrite earlier ones). -/
def applyWrites (mem : Nat → Option Nat) (ws : List (Nat × Option Nat)) : Nat → Option Nat :=
  ws.foldl (fun m w => setNext m w.1 w.2) mem

/-- The stores performed by the slicing loop
`for (i = 0; i < chunk_size/item_size; i++) ... node->next_ = next;`
over the chunk based at `b`, where the node of slot `i` sits at `b + i*isz` and
the last slot's `next_` is set to `tailNext`.  `alloc_chunk_impl`
(FixedMemPool.hpp:42-52) runs it with `tailNext = none` (`nullptr`); the
constructor's inner loop (FixedMemPool.hpp:95-108) runs it with `tailNext`
the base of the following chunk, or `none` for the last chunk. -/
def chunkWrites (isz csz b : Nat) (tailNext : Option Nat) : List (Nat × Option Nat) :=
  (List.range (csz / isz)).map (fun i =>
    (b + i * isz, if i = csz / isz - 1 then tailNext else some (b + (i + 1) * isz)))

/-- The slot addresses of the chunk based at `b`: `b + i*item_size` for
`i < chunk_size/item_size`. -/
def chunkSlots (isz csz b : Nat) : List Nat :=
  (List.range (csz / isz)).map (fun i => b + i * isz)

/-- Model of `fixed_mem_pool::alloc_chunk_impl` (FixedMemPool.hpp:39-60): heap-allocate
one chunk at the fresh base, thread its slots into a private chain whose tail
links to `nullptr`, push the chunk onto `chunks_`, and return (state, tail
address).  The loop assigns `tail_node` at `i = chunk_size/item_size - 1`,
i.e. the tail is `base + (chunk_size/item_size - 1)*item_size`. -/
def alloc_chunk_impl (isz csz : Nat) (p : Pool) : Pool × Nat :=
  let base := p.fresh
  ({ chunks := p.chunks ++ [base]
     head := p.head
     next := applyWrites p.next (chunkWrites isz csz base none)
     fresh := p.fresh + csz },
   base + (csz / isz - 1) * isz)

/-- Model of `fixed_mem_pool::debug_check_free_align` (FixedMemPool.hpp:62-84): scan the
chunk snapshot; `ptr` is accepted iff some chunk contains it (`ptr >= c &&
ptr < c + chunk_size`) at an offset that is an exact multiple of `item_size`
(an in-range but misaligned offset `continue`s to the next chunk). -/
def debug_check_free_align (isz csz : Nat) (p : Pool) (ptr : Nat) : Bool :=
  p.chunks.any (fun c =>
    decide (c ≤ ptr) && decide (ptr < c + csz) && decide ((ptr - c) % isz = 0))

/-- The chunk bases produced by the constructor's first loop
(FixedMemPool.hpp:89-91): `chunks_count` chunks, heap-allocated in order, so
chunk `c` is based at `fresh0 + c*chunk_size`. -/
def ctorBases (fresh0 csz count : Nat) : List Nat :=
  (List.range count).map (fun c => fresh0 + c * csz)

/-- The `next_` stores performed by the constructor's second loop
(FixedMemPool.hpp:94-109): for each chunk `c` in order, the slicing loop whose
last slot links to `chunks_[c+1].get()` — or to `nullptr` for the last
chunk. -/
def ctorWrites (isz csz fresh0 count : Nat) : List (Nat × Option Nat) :=
  (List.range count).flatMap (fun c =>
    chunkWrites isz csz (fresh0 + c * csz)
      (if c = count - 1 then none else some (fresh0 + (c + 1) * csz)))

/-- All slot addresses of the constructor-built chunks, in chain order. -/
def ctorSlots (isz csz fresh0 count : Nat) : List Nat :=
  (List.range count).flatMap (fun c => chunkSlots isz csz (fresh0 + c * csz))

/-- Model of the constructor `fixed_mem_pool::fixed_mem_pool(chunks_count)` (FixedMemPool.hpp:87-111):
allocate `count` chunks, thread all their slots, and set
`head_ = reinterpret_cast<mem_node*>(chunks_[0].get())` (the first chunk's
base; for `count = 0` that read is out of bounds — claim C9 — and the model
uses the vector-read default `fresh0`, which is what the value would be for
any `count ≥ 1`).  Initial heap contents are unconstrained; the model uses
`none` everywhere, and no theorem below reads an address the constructor did
not write. -/
def mkPool (isz csz count fresh0 : Nat) : Pool :=
  { chunks := ctorBases fresh0 csz count
    head := some ((ctorBases fresh0 csz count).headD fresh0)
    next := applyWrites (fun _ => none) (ctorWrites isz csz fresh0 count)
    fresh := fresh0 + count * csz }

/-- Model of `fixed_mem_pool::alloc` (FixedMemPool.hpp:135-148): under `node_latch_`,
if `head_` is null either return `nullptr` (`alloc_when_exhausted = false`) or
call `alloc_chunk_impl` and point `head_` at `chunks_.back().get()`; then pop:
`ptr = head_; head_ = head_->next_; return ptr`. -/
def alloc (isz csz : Nat) (alloc_when_exhausted : Bool) (p : Pool) : Pool × Option Nat :=
  match p.head with
  | some a => ({ p with head := p.next a }, some a)
  | none =>
    if alloc_when_exhausted then
      let p1 := (alloc_chunk_impl isz csz p).1
      let b := p1.chunks.getLastD 0
      ({ p1 with head := p1.next b }, some b)
    else (p, none)

/-- Model of `fixed_mem_pool::free` (FixedMemPool.hpp:159-170): LIFO push of the slot —
`node->next_ = head_; head_ = node;` under `node_latch_`.  (The debug-build
assertion is `debug_check_free_align`, modelled separately.) -/
def free (p : Pool) (ptr : Nat) : Pool :=
  { p with next := setNext p.next ptr p.head, head := some ptr }

/-- Model of `fixed_mem_pool::alloc_new_chunk` (FixedMemPool.hpp:121-132): build one new
chunk via `alloc_chunk_impl`, then under `node_latch_`: if `head_` is non-null
set the new tail's `next_` to the old head, and in any case point `head_` at
`chunks_.back().get()` (the new chunk's base). -/
def alloc_new_chunk (isz csz : Nat) (p : Pool) : Pool :=
  let r := alloc_chunk_impl isz csz p
  let p1 := r.1
  let next1 := match p1.head with
    | some h => setNext p1.next r.2 (some h)
    | none => p1.next
  { p1 with next := next1, head := some (p1.chunks.getLastD 0) }

/-- Run `k` successive calls of `alloc(alloc_when_exhausted)`, collecting the
returned pointers in call order. -/
def allocs (isz csz : Nat) (g : Bool) : Nat → Pool → Pool × List (Option Nat)
  | 0, p => (p, [])
  | k + 1, p =>
    let r := alloc isz csz g p
    let rest := allocs isz csz g k r.1
    (rest.1, r.2 :: rest.2)

/-- Predicate `encodesB mem h L = true` states that the pointer `h` together with the
`next_` fields stored in `mem` encodes exactly the singly linked free list
whose nodes are `L` in order: `h` points at the first node of `L` (or is null
when `L` is empty), each node's `next_` points at its successor, and the last
node's `next_` is null. -/
def encodesB (mem : Nat → Option Nat) : Option Nat → List Nat → Bool
  | h, [] => h == none
  | h, a :: L => h == some a && mem a == L.head? && encodesB mem L.head? L

/-- The `chunks_` vector index reads performed by the constructor body
(FixedMemPool.hpp:94-110) for `chunks_count = count` and
`chunk_size/item_size = m`, in program order: the second loop reads
`chunks_[c]` on every inner iteration (line 96) and additionally
`chunks_[c+1]` when `i = m-1` and `c ≠ count-1` (line 102); line 110 finally
reads `chunks_[0]` unconditionally. -/
def ctorReadIndices (count m : Nat) : List Nat :=
  ((List.range count).flatMap (fun c =>
    (List.range m).flatMap (fun i =>
      [c] ++ (if i = m - 1 then (if c = count - 1 then [] else [c + 1]) else [])))) ++ [0]

/-- The addresses of `n` consecutive slots of the chunk based at `b` starting
with slot `j`: `b + j*item_size, b + (j+1)*item_size, …` (recursive form of a
slice of `chunkSlots`, convenient for induction along the chain). -/
def slotsFrom (isz b : Nat) : Nat → Nat → List Nat
  | 0, _ => []
  | n + 1, j => (b + j * isz) :: slotsFrom isz b n (j + 1)

/-- The value the constructor's threading loop stores into the `next_` field
of slot `i` of chunk `c` (claim C5's shape, read off FixedMemPool.hpp:97-107):
link to the next slot of the same chunk, except the last slot, which links to
the base of chunk `c+1`, or to `nullptr` for the last chunk. -/
def ctorVal (isz csz fresh0 count c i : Nat) : Option Nat :=
  if i = csz / isz - 1 then
    (if c = count - 1 then none else some (fresh0 + (c + 1) * csz))
  else some (fresh0 + c * csz + (i + 1) * isz)

/-- Events relevant to the two lock domains and the backing heap. -/
inductive PoolEvent where
  | lockNode
  | unlockNode
  | lockChunk
  | unlockChunk
  | heapAlloc
deriving DecidableEq

/-- Event trace of `alloc(alloc_when_exhausted = true)` when it finds the free
list empty, in source order (FixedMemPool.hpp:135-148): line 136 acquires
`node_latch_`; line 139 calls `alloc_chunk_impl`, which performs the heap
allocation (line 40) and then acquires and releases `chunk_latch_`
(lines 55-57); `node_latch_` is released when `nl` is destroyed at the
`return` (line 147-148). -/
def allocGrowEmptyTrace : List PoolEvent :=
  [.lockNode, .heapAlloc, .lockChunk, .unlockChunk, .unlockNode]

/-- Event trace of `alloc_new_chunk` (FixedMemPool.hpp:121-132): line 122
calls `alloc_chunk_impl` (heap allocation, then `chunk_latch_` acquire and
release), and only afterwards line 125 acquires `node_latch_`, released at
scope end. -/
def allocNewChunkTrace : List PoolEvent :=
  [.heapAlloc, .lockChunk, .unlockChunk, .lockNode, .unlockNode]

/-- Number of times the calling thread holds `node_latch_` (the free-list
lock) after executing the events of `t`. -/
def nodeDepth (t : List PoolEvent) : Nat :=
  t.foldl (fun d e =>
    match e with
    | .lockNode => d + 1
    | .unlockNode => d - 1
    | _ => d) 0

/-- Holds (is `true`) iff every heap allocation in the trace happens at a point
where the calling thread does not hold `node_latch_`. -/
def heapAllocsOutsideNodeLock (t : List PoolEvent) : Bool :=
  (List.range t.length).all (fun k =>
    !(t.getD k .lockNode == .heapAlloc) || (nodeDepth (t.take k) == 0))

/-- Holds (is `true`) iff every heap allocation in the trace happens at a point
where the calling thread holds `node_latch_` exactly `d` times. -/
def heapAllocsAtNodeDepth (t : List PoolEvent) (d : Nat) : Bool :=
  (List.range t.length).all (fun k =>
    !(t.getD k .lockNode == .heapAlloc) || (nodeDepth (t.take k) == d))

/-! ### Basic lemmas about stores and write sequences -/

theorem setNext_same (mem : Nat → Option Nat) (a : Nat) (v : Option Nat) :
    setNext mem a v a = v := by
  simp [setNext]

theorem setNext_other (mem : Nat → Option Nat) (a : Nat) (v : Option Nat) (x : Nat)
    (h : x ≠ a) : setNext mem a v x = mem x := by
  simp [setNext, h]

theorem applyWrites_cons (mem : Nat → Option Nat) (w : Nat × Option Nat)
    (ws : List (Nat × Option Nat)) :
    applyWrites mem (w :: ws) = applyWrites (setNext mem w.1 w.2) ws := rfl

theorem applyWrites_not_mem (mem : Nat → Option Nat) (ws : List (Nat × Option Nat)) (x : Nat)
    (h : ∀ w ∈ ws, w.1 ≠ x) : applyWrites mem ws x = mem x := by
  induction ws generalizing mem with
  | nil => rfl
  | cons w ws ih =>
    rw [applyWrites_cons, ih _ (fun u hu => h u (List.mem_cons_of_mem _ hu))]
    exact setNext_other _ _ _ _ (Ne.symm (h w (List.mem_cons_self _ _)))

theorem applyWrites_pairwise (mem : Nat → Option Nat) (ws : List (Nat × Option Nat))
    (x : Nat) (v : Option Nat)
    (hdist : ws.Pairwise (fun a b => a.1 ≠ b.1)) (hmem : (x, v) ∈ ws) :
    applyWrites mem ws x = v := by
  induction ws generalizing mem with
  | nil => cases hmem
  | cons w ws ih =>
    rcases List.mem_cons.mp hmem with h | h
    · have hx : ∀ u ∈ ws, u.1 ≠ x := by
        intro u hu
        have hwu := (List.pairwise_cons.mp hdist).1 u hu
        rw [← h] at hwu
        exact Ne.symm hwu
      rw [applyWrites_cons, applyWrites_not_mem _ _ _ hx, ← h, setNext_same]
    · exact applyWrites_cons mem w ws ▸ ih _ (List.pairwise_cons.mp hdist).2 h

/-! ### The slicing loop: addresses, bounds, characterization -/

theorem chunkWrites_map_fst (isz csz b : Nat) (t : Option Nat) :
    (chunkWrites isz csz b t).map Prod.fst = chunkSlots isz csz b := by
  simp [chunkWrites, chunkSlots, List.map_map, Function.comp]

theorem slot_addr_inj (isz b : Nat) (h1 : 1 ≤ isz) :
    Function.Injective (fun i => b + i * isz) := by
  intro i j hij
  simp only [Nat.add_right_inj] at hij
  exact Nat.eq_of_mul_eq_mul_right h1 hij

theorem chunkSlots_nodup (isz csz b : Nat) (h1 : 1 ≤ isz) :
    (chunkSlots isz csz b).Nodup :=
  (List.nodup_range _).map (slot_addr_inj isz b h1)

theorem chunkSlots_lb (isz csz b : Nat) : ∀ a ∈ chunkSlots isz csz b, b ≤ a := by
  intro a ha
  simp only [chunkSlots, List.mem_map, List.mem_range] at ha
  obtain ⟨i, _, rfl⟩ := ha
  omega

theorem chunkSlots_ub (isz csz b : Nat) (h1 : 1 ≤ isz) :
    ∀ a ∈ chunkSlots isz csz b, a < b + csz := by
  intro a ha
  simp only [chunkSlots, List.mem_map, List.mem_range] at ha
  obtain ⟨i, hi, rfl⟩ := ha
  have h2 : (i + 1) * isz ≤ (csz / isz) * isz := Nat.mul_le_mul_right _ hi
  have h3 : (csz / isz) * isz ≤ csz := Nat.div_mul_le_self csz isz
  have h4 : (i + 1) * isz = i * isz + isz := Nat.succ_mul i isz
  omega

theorem chunkWrites_pairwise_fst (isz csz b : Nat) (t : Option Nat) (h1 : 1 ≤ isz) :
    (chunkWrites isz csz b t).Pairwise (fun a b => a.1 ≠ b.1) := by
  have h := chunkSlots_nodup isz csz b h1
  rw [← chunkWrites_map_fst isz csz b t] at h
  exact (List.pairwise_map).mp h

theorem chunkWrites_char (isz csz b : Nat) (t : Option Nat) (mem : Nat → Option Nat)
    (h1 : 1 ≤ isz) (i : Nat) (hi : i < csz / isz) :
    applyWrites mem (chunkWrites isz csz b t) (b + i * isz)
      = if i = csz / isz - 1 then t else some (b + (i + 1) * isz) := by
  apply applyWrites_pairwise _ _ _ _ (chunkWrites_pairwise_fst isz csz b t h1)
  exact List.mem_map.mpr ⟨i, List.mem_range.mpr hi, rfl⟩

theorem chunkWrites_below (isz csz b : Nat) (t : Option Nat) (mem : Nat → Option Nat)
    (x : Nat) (hx : x < b) :
    applyWrites mem (chunkWrites isz csz b t) x = mem x := by
  apply applyWrites_not_mem
  intro w hw
  have hmem : w.1 ∈ chunkSlots isz csz b := by
    rw [← chunkWrites_map_fst isz csz b t]
    exact List.mem_map_of_mem _ hw
  have := chunkSlots_lb isz csz b _ hmem
  omega

/-! ### Constructor layout: slot addresses, bounds, characterization -/

theorem ctorSlots_succ (isz csz f n : Nat) :
    ctorSlots isz csz f (n + 1)
      = chunkSlots isz csz f ++ ctorSlots isz csz (f + csz) n := by
  unfold ctorSlots
  rw [List.range_succ_eq_map, List.flatMap_cons, List.flatMap_map]
  congr 1
  · simp
  · congr 1
    funext a
    congr 1
    simp only [Nat.succ_eq_add_one]
    ring

theorem ctorSlots_lb (isz csz f n : Nat) : ∀ a ∈ ctorSlots isz csz f n, f ≤ a := by
  induction n generalizing f with
  | zero => intro a ha; cases ha
  | succ n ih =>
    intro a ha
    rw [ctorSlots_succ] at ha
    rcases List.mem_append.mp ha with h | h
    · exact chunkSlots_lb isz csz f a h
    · have := ih (f + csz) a h
      omega

theorem ctorSlots_ub (isz csz f n : Nat) (h1 : 1 ≤ isz) :
    ∀ a ∈ ctorSlots isz csz f n, a < f + n * csz := by
  induction n generalizing f with
  | zero => intro a ha; cases ha
  | succ n ih =>
    intro a ha
    rw [ctorSlots_succ] at ha
    have hmul : (n + 1) * csz = csz + n * csz := by ring
    rcases List.mem_append.mp ha with h | h
    · have := chunkSlots_ub isz csz f h1 a h
      omega
    · have := ih (f + csz) a h
      omega

theorem ctorSlots_nodup (isz csz f n : Nat) (h1 : 1 ≤ isz) :
    (ctorSlots isz csz f n).Nodup := by
  induction n generalizing f with
  | zero => exact List.nodup_nil
  | succ n ih =>
    rw [ctorSlots_succ]
    rw [List.nodup_append]
    refine ⟨chunkSlots_nodup isz csz f h1, ih (f + csz), ?_⟩
    intro a ha hb
    have h2 := chunkSlots_ub isz csz f h1 a ha
    have h3 := ctorSlots_lb isz csz (f + csz) n a hb
    omega

theorem ctorWrites_map_fst (isz csz f n : Nat) :
    (ctorWrites isz csz f n).map Prod.fst = ctorSlots isz csz f n := by
  unfold ctorWrites ctorSlots
  rw [List.map_flatMap]
  congr 1
  funext c
  exact chunkWrites_map_fst isz csz _ _

theorem ctorWrites_pairwise_fst (isz csz f n : Nat) (h1 : 1 ≤ isz) :
    (ctorWrites isz csz f n).Pairwise (fun a b => a.1 ≠ b.1) := by
  have h := ctorSlots_nodup isz csz f n h1
  rw [← ctorWrites_map_fst isz csz f n] at h
  exact (List.pairwise_map).mp h

theorem ctorWrites_mem (isz csz f n c i : Nat) (hc : c < n) (hi : i < csz / isz) :
    (f + c * csz + i * isz, ctorVal isz csz f n c i) ∈ ctorWrites isz csz f n := by
  unfold ctorWrites
  apply List.mem_flatMap.mpr
  refine ⟨c, List.mem_range.mpr hc, ?_⟩
  unfold chunkWrites
  apply List.mem_map.mpr
  refine ⟨i, List.mem_range.mpr hi, ?_⟩
  unfold ctorVal
  rcases Decidable.em (i = csz / isz - 1) with hie | hie <;> simp [hie]

theorem mkPool_next_char (isz csz count f : Nat) (h1 : 1 ≤ isz)
    (c i : Nat) (hc : c < count) (hi : i < csz / isz) :
    (mkPool isz csz count f).next (f + c * csz + i * isz) = ctorVal isz csz f count c i := by
  exact applyWrites_pairwise _ _ _ _ (ctorWrites_pairwise_fst isz csz f count h1)
    (ctorWrites_mem isz csz f count c i hc hi)

theorem mkPool_head (isz csz count f : Nat) (hc : 1 ≤ count) :
    (mkPool isz csz count f).head = some f := by
  obtain ⟨k, rfl⟩ : ∃ k, count = k + 1 := ⟨count - 1, by omega⟩
  simp [mkPool, ctorBases, List.range_succ_eq_map]

theorem mkPool_chunks (isz csz count f : Nat) :
    (mkPool isz csz count f).chunks = ctorBases f csz count := rfl

theorem mkPool_chunks_length (isz csz count f : Nat) :
    (mkPool isz csz count f).chunks.length = count := by
  simp [mkPool, ctorBases]

theorem chunkSlots_head? (isz csz b : Nat) (hm : 1 ≤ csz / isz) :
    (chunkSlots isz csz b).head? = some b := by
  obtain ⟨k, hk⟩ : ∃ k, csz / isz = k + 1 := ⟨csz / isz - 1, by omega⟩
  simp [chunkSlots, hk, List.range_succ_eq_map]

theorem ctorSlots_head? (isz csz f n : Nat) (hm : 1 ≤ csz / isz) (hn : 1 ≤ n) :
    (ctorSlots isz csz f n).head? = some f := by
  obtain ⟨k, rfl⟩ : ∃ k, n = k + 1 := ⟨n - 1, by omega⟩
  rw [ctorSlots_succ, List.head?_append, chunkSlots_head? isz csz f hm]
  rfl

theorem ctorSlots_length (isz csz f n : Nat) :
    (ctorSlots isz csz f n).length = (csz / isz) * n := by
  unfold ctorSlots
  rw [List.length_flatMap]
  have hfn : (List.length ∘ fun c => chunkSlots isz csz (f + c * csz))
      = Function.const Nat (csz / isz) := by
    funext c
    simp [chunkSlots, Function.comp, Function.const]
  rw [hfn, List.map_const, List.length_range, List.sum_replicate, smul_eq_mul, Nat.mul_comm]

/-! ### Free-list chain encoding -/

theorem encodesB_nil (mem : Nat → Option Nat) (h : Option Nat) :
    encodesB mem h [] = (h == none) := rfl

theorem encodesB_cons (mem : Nat → Option Nat) (h : Option Nat) (a : Nat) (L : List Nat) :
    encodesB mem h (a :: L)
      = (h == some a && mem a == L.head? && encodesB mem L.head? L) := rfl

theorem encodesB_head (mem : Nat → Option Nat) (h : Option Nat) (L : List Nat)
    (hE : encodesB mem h L = true) : h = L.head? := by
  cases L with
  | nil => simpa [encodesB_nil] using hE
  | cons a L =>
    rw [encodesB_cons, Bool.and_eq_true, Bool.and_eq_true] at hE
    exact eq_of_beq hE.1.1

theorem encodesB_nil_of_none (mem : Nat → Option Nat) (L : List Nat)
    (hE : encodesB mem none L = true) : L = [] := by
  cases L with
  | nil => rfl
  | cons a L =>
    rw [encodesB_cons] at hE
    simp at hE

theorem encodesB_congr (mem mem' : Nat → Option Nat) (h : Option Nat) (L : List Nat) :
    (∀ a ∈ L, mem' a = mem a) → encodesB mem' h L = encodesB mem h L := by
  induction L generalizing h with
  | nil => intro _; rfl
  | cons a L ih =>
    intro hagree
    rw [encodesB_cons, encodesB_cons, hagree a (List.mem_cons_self _ _),
      ih _ (fun x hx => hagree x (List.mem_cons_of_mem _ hx))]

theorem slotsFrom_eq_map (isz b : Nat) :
    ∀ n j, slotsFrom isz b n j = (List.range n).map (fun k => b + (j + k) * isz) := by
  intro n
  induction n with
  | zero => intro j; rfl
  | succ n ih =>
    intro j
    rw [List.range_succ_eq_map, List.map_cons, List.map_map]
    show (b + j * isz) :: slotsFrom isz b n (j + 1) = _
    rw [ih (j + 1)]
    congr 1
    norm_num
    intro a _
    exact Or.inl (by omega)

theorem chunkSlots_eq_slotsFrom (isz csz b : Nat) :
    chunkSlots isz csz b = slotsFrom isz b (csz / isz) 0 := by
  rw [slotsFrom_eq_map]
  unfold chunkSlots
  congr 1
  funext i
  norm_num

/-- Building block for all free-list shapes below: if `mem` holds the slicing
loop's links for the chunk at `b` (last slot's `next_` equal to the head
pointer of an already-encoded list `L`), then the slot suffix starting at slot
`j` followed by `L` is a well-formed chain. -/
theorem encodesB_chunk_chain (isz csz b : Nat) (mem : Nat → Option Nat) (t : Option Nat)
    (L : List Nat)
    (hchar : ∀ i, i < csz / isz →
      mem (b + i * isz) = if i = csz / isz - 1 then t else some (b + (i + 1) * isz))
    (ht : t = L.head?) (hL : encodesB mem L.head? L = true) :
    ∀ n j, j + n = csz / isz →
      encodesB mem (slotsFrom isz b n j ++ L).head? (slotsFrom isz b n j ++ L) = true := by
  intro n
  induction n with
  | zero =>
    intro j hj
    simpa [slotsFrom] using hL
  | succ n ih =>
    intro j hj
    have hji : j < csz / isz := by omega
    show encodesB mem (some (b + j * isz)) (((b + j * isz) :: slotsFrom isz b n (j + 1)) ++ L) = true
    rw [List.cons_append, encodesB_cons]
    refine (Bool.and_eq_true _ _).mpr ⟨(Bool.and_eq_true _ _).mpr ⟨by simp, ?_⟩, ?_⟩
    · apply beq_iff_eq.mpr
      cases n with
      | zero =>
        have hjlast : j = csz / isz - 1 := by omega
        rw [hchar j hji, if_pos hjlast, ht]
        rfl
      | succ n =>
        have hjlast : ¬ (j = csz / isz - 1) := by omega
        rw [hchar j hji, if_neg hjlast]
        rfl
    · exact ih (j + 1) (by omega)

/-- The free list built by the constructor is exactly the chain of all slots
of all chunks, in chunk-then-slot order. -/
theorem encodesB_ctor_chain (isz csz : Nat) (h1 : 1 ≤ isz) (h2 : isz ≤ csz) :
    ∀ count f (mem : Nat → Option Nat),
      (∀ c i, c < count → i < csz / isz →
        mem (f + c * csz + i * isz) = ctorVal isz csz f count c i) →
      encodesB mem (ctorSlots isz csz f count).head? (ctorSlots isz csz f count) = true := by
  have hm : 1 ≤ csz / isz := (Nat.one_le_div_iff h1).mpr h2
  intro count
  induction count with
  | zero => intro f mem _; rfl
  | succ n ih =>
    intro f mem hchar
    have hL : encodesB mem (ctorSlots isz csz (f + csz) n).head?
        (ctorSlots isz csz (f + csz) n) = true := by
      apply ih (f + csz) mem
      intro c i hc hi
      have h := hchar (c + 1) i (by omega) hi
      rw [show f + (c + 1) * csz = f + csz + c * csz by ring] at h
      rw [h]
      unfold ctorVal
      by_cases hie : i = csz / isz - 1
      · rw [if_pos hie, if_pos hie]
        by_cases hce : c + 1 = n + 1 - 1
        · rw [if_pos hce, if_pos (by omega : c = n - 1)]
        · rw [if_neg hce, if_neg (by omega : ¬ c = n - 1)]
          congr 1
          ring
      · rw [if_neg hie, if_neg hie]
        congr 1
        ring
    have hchar0 : ∀ i, i < csz / isz →
        mem (f + i * isz) = if i = csz / isz - 1
          then (if n = 0 then none else some (f + csz))
          else some (f + (i + 1) * isz) := by
      intro i hi
      have h := hchar 0 i (by omega) hi
      rw [show f + 0 * csz + i * isz = f + i * isz by ring] at h
      rw [h]
      unfold ctorVal
      by_cases hie : i = csz / isz - 1
      · rw [if_pos hie, if_pos hie]
        by_cases hn : n = 0
        · rw [if_pos (by omega : (0 : Nat) = n + 1 - 1), if_pos hn]
        · rw [if_neg (by omega : ¬ (0 : Nat) = n + 1 - 1), if_neg hn]
          congr 1
          ring
      · rw [if_neg hie, if_neg hie]
        congr 1
        ring
    have ht : (if n = 0 then none else some (f + csz))
        = (ctorSlots isz csz (f + csz) n).head? := by
      by_cases hn : n = 0
      · rw [if_pos hn, hn]; rfl
      · rw [if_neg hn, ctorSlots_head? isz csz (f + csz) n hm (by omega)]
    rw [ctorSlots_succ, chunkSlots_eq_slotsFrom]
    exact encodesB_chunk_chain isz csz f mem _ _ hchar0 ht hL (csz / isz) 0 (by omega)

/-- A pool whose free list encodes `L` hands out exactly the addresses of `L`
in order under non-growing `alloc`, then an empty result. -/
theorem allocs_drain (isz csz : Nat) : ∀ (L : List Nat) (p : Pool),
    encodesB p.next p.head L = true →
    (allocs isz csz false (L.length + 1) p).2 = L.map some ++ [none] := by
  intro L
  induction L with
  | nil =>
    intro p hE
    have hh : p.head = none := by simpa [encodesB_nil] using hE
    simp [allocs, alloc, hh]
  | cons a L ih =>
    intro p hE
    rw [encodesB_cons, Bool.and_eq_true, Bool.and_eq_true] at hE
    obtain ⟨⟨hh, hm⟩, hrec⟩ := hE
    have hh' : p.head = some a := eq_of_beq hh
    have hm' : p.next a = L.head? := eq_of_beq hm
    have hE1 : encodesB ({ p with head := p.next a } : Pool).next
        ({ p with head := p.next a } : Pool).head L = true := by
      show encodesB p.next (p.next a) L = true
      rw [hm']
      exact hrec
    have hstep := ih { p with head := p.next a } hE1
    show (allocs isz csz false (L.length + 1 + 1) p).2 = _
    simp only [allocs, alloc, hh']
    simp only [allocs, alloc] at hstep
    rw [hstep]
    rfl

/-- After construction, the pool's free list encodes the full slot chain. -/
theorem mkPool_encodes (isz csz count f : Nat) (h1 : 1 ≤ isz) (h2 : isz ≤ csz)
    (h3 : 1 ≤ count) :
    encodesB (mkPool isz csz count f).next (mkPool isz csz count f).head
      (ctorSlots isz csz f count) = true := by
  have hm : 1 ≤ csz / isz := (Nat.one_le_div_iff h1).mpr h2
  have h := encodesB_ctor_chain isz csz h1 h2 count f (mkPool isz csz count f).next
    (fun c i hc hi => mkPool_next_char isz csz count f h1 c i hc hi)
  rw [ctorSlots_head? isz csz f count hm h3] at h
  rw [mkPool_head isz csz count f h3]
  exact h

theorem slotsFrom_length (isz b : Nat) : ∀ n j, (slotsFrom isz b n j).length = n := by
  intro n
  induction n with
  | zero => intro j; rfl
  | succ n ih =>
    intro j
    show (slotsFrom isz b n (j + 1)).length + 1 = n + 1
    rw [ih (j + 1)]

theorem slotsFrom_head_append (isz b n j : Nat) (L : List Nat) (hn : 1 ≤ n) :
    (slotsFrom isz b n j ++ L).head? = some (b + j * isz) := by
  obtain ⟨k, rfl⟩ : ∃ k, n = k + 1 := ⟨n - 1, by omega⟩
  rfl

theorem chunkSlots_length (isz csz b : Nat) :
    (chunkSlots isz csz b).length = csz / isz := by
  simp [chunkSlots]

/-- Unfolding of `alloc(true)` on an empty free list: one chunk is carved at
the fresh base, the new chunk's first slot is popped and returned, and the
head moves to that slot's freshly written link. -/
theorem alloc_grow_empty (isz csz : Nat) (p : Pool) (hh : p.head = none) :
    alloc isz csz true p
      = ({ chunks := p.chunks ++ [p.fresh]
           head := applyWrites p.next (chunkWrites isz csz p.fresh none) p.fresh
           next := applyWrites p.next (chunkWrites isz csz p.fresh none)
           fresh := p.fresh + csz }, some p.fresh) := by
  simp [alloc, hh, alloc_chunk_impl, List.getLastD_concat]

/-! ### Claim theorems -/

/-- Claim C1. For every pool constructed with `initial_chunk_count = count ≥ 1`
(under the template's `static_assert` constraints `1 ≤ item_size` and
`item_size ≤ chunk_size`), with growth disabled, exactly
`⌊chunk_size/item_size⌋ * count` consecutive `alloc(false)` calls each return
a slot — the constructor's slots in chain order — and the next `alloc(false)`
returns the empty result. -/
theorem capacity_bound (isz csz count f : Nat)
    (h1 : 1 ≤ isz) (h2 : isz ≤ csz) (h3 : 1 ≤ count) :
    (ctorSlots isz csz f count).length = (csz / isz) * count ∧
    (allocs isz csz false ((csz / isz) * count + 1) (mkPool isz csz count f)).2
      = (ctorSlots isz csz f count).map some ++ [none] := by
  have hlen := ctorSlots_length isz csz f count
  refine ⟨hlen, ?_⟩
  have h := allocs_drain isz csz (ctorSlots isz csz f count) (mkPool isz csz count f)
    (mkPool_encodes isz csz count f h1 h2 h3)
  rwa [hlen] at h

theorem capacity_bound_witness :
    (1 ≤ 8 ∧ 8 ≤ 32 ∧ 1 ≤ 2) ∧
    ((ctorSlots 8 32 100 2).length = (32 / 8) * 2 ∧
     (allocs 8 32 false ((32 / 8) * 2 + 1) (mkPool 8 32 2 100)).2
       = (ctorSlots 8 32 100 2).map some ++ [none]) :=
  ⟨⟨by decide, by decide, by decide⟩,
   capacity_bound 8 32 2 100 (by decide) (by decide) (by decide)⟩

/-- Claim C2. For every pool state and every address `q`, calling `free(q)` and
then immediately `alloc(false)` returns exactly the address `q` (LIFO push
then pop round-trip); in particular this holds for any slot previously
returned by `alloc`. -/
theorem free_then_alloc_roundtrip (isz csz : Nat) (p : Pool) (q : Nat) :
    (alloc isz csz false (free p q)).2 = some q := rfl

/-- Claim C5. After construction with `count ≥ 1` chunks, the free-list head is
the first slot of chunk 0 (its base address), each slot's embedded link points
to the next slot of the same chunk, the last slot of chunk `c` (for
`c < count-1`) links to the first slot of chunk `c+1`, and the final chunk's
final slot has an empty link. -/
theorem ctor_freelist_layout (isz csz count f : Nat)
    (h1 : 1 ≤ isz) (h3 : 1 ≤ count) :
    (mkPool isz csz count f).head = some f ∧
    ∀ c i, c < count → i < csz / isz →
      (mkPool isz csz count f).next (f + c * csz + i * isz)
        = (if i + 1 < csz / isz then some (f + c * csz + (i + 1) * isz)
           else if c + 1 < count then some (f + (c + 1) * csz) else none) := by
  refine ⟨mkPool_head isz csz count f h3, ?_⟩
  intro c i hc hi
  rw [mkPool_next_char isz csz count f h1 c i hc hi]
  unfold ctorVal
  by_cases hie : i = csz / isz - 1
  · rw [if_pos hie, if_neg (by omega : ¬ i + 1 < csz / isz)]
    by_cases hce : c = count - 1
    · rw [if_pos hce, if_neg (by omega : ¬ c + 1 < count)]
    · rw [if_neg hce, if_pos (by omega : c + 1 < count)]
  · rw [if_neg hie, if_pos (by omega : i + 1 < csz / isz)]

theorem ctor_freelist_layout_witness :
    (1 ≤ 8 ∧ 1 ≤ 2) ∧
    ((mkPool 8 32 2 100).head = some 100 ∧
     ∀ c i, c < 2 → i < 32 / 8 →
       (mkPool 8 32 2 100).next (100 + c * 32 + i * 8)
         = (if i + 1 < 32 / 8 then some (100 + c * 32 + (i + 1) * 8)
            else if c + 1 < 2 then some (100 + (c + 1) * 32) else none)) :=
  ⟨⟨by decide, by decide⟩, ctor_freelist_layout 8 32 2 100 (by decide) (by decide)⟩

/-- Claim C8. In every pool state whose free list is empty, `alloc(false)`
returns the empty result as an ordinary value and leaves the pool — in
particular the free-list head and the chunk list — completely unchanged. -/
theorem alloc_exhausted_returns_empty (isz csz : Nat) (p : Pool) (hh : p.head = none) :
    alloc isz csz false p = (p, none) := by
  simp [alloc, hh]

theorem alloc_exhausted_returns_empty_witness :
    (Pool.mk [100] none (fun _ => none) 132).head = none ∧
    alloc 8 32 false (Pool.mk [100] none (fun _ => none) 132)
      = (Pool.mk [100] none (fun _ => none) 132, none) :=
  ⟨rfl, alloc_exhausted_returns_empty 8 32 _ rfl⟩

/-- Claim C9. Every `chunks_` index read performed by the constructor body is in
bounds when `initial_chunk_count ≥ 1`; for `initial_chunk_count = 0` the
constructor still reads index 0 (line 110) of the then-empty chunk vector, an
out-of-bounds access, so the zero-chunk case is not safely constructible. -/
theorem ctor_index_bounds (isz csz f count m : Nat) (h3 : 1 ≤ count) :
    (∀ j ∈ ctorReadIndices count m, j < count) ∧
    0 ∈ ctorReadIndices 0 m ∧
    (mkPool isz csz 0 f).chunks.length = 0 := by
  refine ⟨?_, ?_, ?_⟩
  · intro j hj
    simp only [ctorReadIndices, List.mem_append, List.mem_flatMap, List.mem_range,
      List.mem_singleton, List.mem_cons] at hj
    rcases hj with ⟨c, hc, i, hi, hj⟩ | hj0
    case inr =>
      rcases hj0 with rfl | h0
      · omega
      · cases h0
    · rcases hj with (rfl | h0) | hj
      · exact hc
      · cases h0
      · by_cases hie : i = m - 1
        · rw [if_pos hie] at hj
          by_cases hce : c = count - 1
          · rw [if_pos hce] at hj
            cases hj
          · rw [if_neg hce] at hj
            rcases List.mem_singleton.mp hj with rfl
            omega
        · rw [if_neg hie] at hj
          cases hj
  · simp [ctorReadIndices]
  · exact mkPool_chunks_length isz csz 0 f

theorem ctor_index_bounds_witness :
    1 ≤ 2 ∧
    ((∀ j ∈ ctorReadIndices 2 4, j < 2) ∧
     0 ∈ ctorReadIndices 0 4 ∧
     (mkPool 8 32 0 100).chunks.length = 0) :=
  ⟨by decide, ctor_index_bounds 8 32 100 2 4 (by decide)⟩

/-- Claim C4, counterexample. The claim states that in `alloc(true)` on an empty
free list, the heap allocation happens while the free-list lock is not held by
the calling thread.  On the code this is false: `alloc` acquires `node_latch_`
at entry (line 136) and calls `alloc_chunk_impl` — which performs the heap
allocation — at line 139, before the lock is released. -/
theorem alloc_grow_heap_alloc_inside_node_lock :
    heapAllocsOutsideNodeLock allocGrowEmptyTrace = false := by decide

/-- Claim C4, amended. In every execution of `alloc(true)` that finds the free
list empty, the heap allocation happens while the calling thread holds the
free-list lock (at depth exactly 1); it is only `alloc_new_chunk` that
performs the heap allocation outside the free-list lock. -/
theorem alloc_grow_heap_alloc_lock_discipline :
    allocGrowEmptyTrace.contains PoolEvent.heapAlloc = true ∧
    heapAllocsAtNodeDepth allocGrowEmptyTrace 1 = true ∧
    allocNewChunkTrace.contains PoolEvent.heapAlloc = true ∧
    heapAllocsOutsideNodeLock allocNewChunkTrace = true := by decide

/-- Claim C3. From any exhausted pool state (empty free list), `alloc(true)`
returns a slot — the first slot of the newly appended chunk — and the
remaining `⌊chunk_size/item_size⌋ - 1` slots of that chunk are returned by the
subsequent `alloc(false)` calls, after which `alloc(false)` returns the empty
result again. -/
theorem grow_then_drain (isz csz : Nat) (p : Pool) (h1 : 1 ≤ isz) (h2 : isz ≤ csz)
    (hh : p.head = none) :
    (alloc isz csz true p).2 = some p.fresh ∧
    (slotsFrom isz p.fresh (csz / isz - 1) 1).length = csz / isz - 1 ∧
    (allocs isz csz false (csz / isz) (alloc isz csz true p).1).2
      = (slotsFrom isz p.fresh (csz / isz - 1) 1).map some ++ [none] := by
  have hm : 1 ≤ csz / isz := (Nat.one_le_div_iff h1).mpr h2
  rw [alloc_grow_empty isz csz p hh]
  refine ⟨rfl, slotsFrom_length isz p.fresh _ 1, ?_⟩
  have hchar : ∀ i, i < csz / isz →
      applyWrites p.next (chunkWrites isz csz p.fresh none) (p.fresh + i * isz)
        = if i = csz / isz - 1 then none else some (p.fresh + (i + 1) * isz) :=
    fun i hi => chunkWrites_char isz csz p.fresh none p.next h1 i hi
  have hE := encodesB_chunk_chain isz csz p.fresh
    (applyWrites p.next (chunkWrites isz csz p.fresh none)) none [] hchar rfl rfl
    (csz / isz - 1) 1 (by omega)
  rw [List.append_nil] at hE
  have hh2 : applyWrites p.next (chunkWrites isz csz p.fresh none) p.fresh
      = (slotsFrom isz p.fresh (csz / isz - 1) 1).head? := by
    have h0 := hchar 0 (by omega)
    rw [show p.fresh + 0 * isz = p.fresh by ring] at h0
    rw [h0]
    by_cases hone : csz / isz = 1
    · rw [if_pos (by omega), hone]
      rfl
    · rw [if_neg (by omega)]
      rw [show (slotsFrom isz p.fresh (csz / isz - 1) 1)
          = (slotsFrom isz p.fresh (csz / isz - 1) 1) ++ [] from (List.append_nil _).symm]
      rw [slotsFrom_head_append isz p.fresh _ 1 [] (by omega)]
  have hE2 : encodesB (applyWrites p.next (chunkWrites isz csz p.fresh none))
      (applyWrites p.next (chunkWrites isz csz p.fresh none) p.fresh)
      (slotsFrom isz p.fresh (csz / isz - 1) 1) = true := by
    rw [hh2]
    exact hE
  have hdrain := allocs_drain isz csz (slotsFrom isz p.fresh (csz / isz - 1) 1)
    { chunks := p.chunks ++ [p.fresh]
      head := applyWrites p.next (chunkWrites isz csz p.fresh none) p.fresh
      next := applyWrites p.next (chunkWrites isz csz p.fresh none)
      fresh := p.fresh + csz } hE2
  rw [slotsFrom_length isz p.fresh _ 1, show csz / isz - 1 + 1 = csz / isz by omega] at hdrain
  exact hdrain

theorem grow_then_drain_witness :
    (1 ≤ 8 ∧ 8 ≤ 32 ∧ (Pool.mk [] none (fun _ => none) 100).head = none) ∧
    ((alloc 8 32 true (Pool.mk [] none (fun _ => none) 100)).2 = some 100 ∧
     (slotsFrom 8 100 (32 / 8 - 1) 1).length = 32 / 8 - 1 ∧
     (allocs 8 32 false (32 / 8) (alloc 8 32 true (Pool.mk [] none (fun _ => none) 100)).1).2
       = (slotsFrom 8 100 (32 / 8 - 1) 1).map some ++ [none]) :=
  ⟨⟨by decide, by decide, rfl⟩,
   grow_then_drain 8 32 (Pool.mk [] none (fun _ => none) 100) (by decide) (by decide) rfl⟩

/-- Claim C6. Every `alloc_new_chunk()` call appends exactly one new chunk to
the chunk list (removing or relocating nothing), makes the new chunk's first
slot the free-list head, links the new chunk's last slot to the previous head
(or leaves it terminating the chain when the list was empty), and extends the
encoded free list by exactly the new chunk's `⌊chunk_size/item_size⌋` slots in
front of the old one. -/
theorem alloc_new_chunk_splice (isz csz : Nat) (p : Pool) (L : List Nat)
    (h1 : 1 ≤ isz) (h2 : isz ≤ csz)
    (hE : encodesB p.next p.head L = true) (hlt : ∀ a ∈ L, a < p.fresh) :
    (alloc_new_chunk isz csz p).chunks = p.chunks ++ [p.fresh] ∧
    (alloc_new_chunk isz csz p).head = some p.fresh ∧
    (chunkSlots isz csz p.fresh).length = csz / isz ∧
    (alloc_new_chunk isz csz p).next (p.fresh + (csz / isz - 1) * isz) = p.head ∧
    encodesB (alloc_new_chunk isz csz p).next (alloc_new_chunk isz csz p).head
      (chunkSlots isz csz p.fresh ++ L) = true := by
  have hm : 1 ≤ csz / isz := (Nat.one_le_div_iff h1).mpr h2
  have hhead := encodesB_head p.next p.head L hE
  cases hh : p.head with
  | none =>
    have hL0 : L = [] := encodesB_nil_of_none p.next L (hh ▸ hE)
    subst hL0
    have hN : alloc_new_chunk isz csz p
        = { chunks := p.chunks ++ [p.fresh]
            head := some p.fresh
            next := applyWrites p.next (chunkWrites isz csz p.fresh none)
            fresh := p.fresh + csz } := by
      simp [alloc_new_chunk, alloc_chunk_impl, hh, List.getLastD_concat]
    have hchunksN : (alloc_new_chunk isz csz p).chunks = p.chunks ++ [p.fresh] := by rw [hN]
    have hheadN : (alloc_new_chunk isz csz p).head = some p.fresh := by rw [hN]
    have hnextN : (alloc_new_chunk isz csz p).next
        = applyWrites p.next (chunkWrites isz csz p.fresh none) := by rw [hN]
    refine ⟨hchunksN, hheadN, chunkSlots_length isz csz p.fresh, ?_, ?_⟩
    · rw [hnextN, chunkWrites_char isz csz p.fresh none p.next h1 (csz / isz - 1) (by omega),
        if_pos rfl]
    · have hchain := encodesB_chunk_chain isz csz p.fresh
        (applyWrites p.next (chunkWrites isz csz p.fresh none)) none []
        (fun i hi => chunkWrites_char isz csz p.fresh none p.next h1 i hi) rfl rfl
        (csz / isz) 0 (by omega)
      rw [slotsFrom_head_append isz p.fresh _ 0 [] hm,
        show p.fresh + 0 * isz = p.fresh by ring] at hchain
      rw [chunkSlots_eq_slotsFrom, hnextN, hheadN]
      exact hchain
  | some h0 =>
    have hN : alloc_new_chunk isz csz p
        = { chunks := p.chunks ++ [p.fresh]
            head := some p.fresh
            next := setNext (applyWrites p.next (chunkWrites isz csz p.fresh none))
              (p.fresh + (csz / isz - 1) * isz) (some h0)
            fresh := p.fresh + csz } := by
      simp [alloc_new_chunk, alloc_chunk_impl, hh, List.getLastD_concat]
    have hchunksN : (alloc_new_chunk isz csz p).chunks = p.chunks ++ [p.fresh] := by rw [hN]
    have hheadN : (alloc_new_chunk isz csz p).head = some p.fresh := by rw [hN]
    have hnextN : (alloc_new_chunk isz csz p).next
        = setNext (applyWrites p.next (chunkWrites isz csz p.fresh none))
          (p.fresh + (csz / isz - 1) * isz) (some h0) := by rw [hN]
    refine ⟨hchunksN, hheadN, chunkSlots_length isz csz p.fresh, ?_, ?_⟩
    · rw [hnextN, setNext_same]
    · have hchar : ∀ i, i < csz / isz →
          setNext (applyWrites p.next (chunkWrites isz csz p.fresh none))
            (p.fresh + (csz / isz - 1) * isz) (some h0) (p.fresh + i * isz)
            = if i = csz / isz - 1 then L.head? else some (p.fresh + (i + 1) * isz) := by
        intro i hi
        by_cases hie : i = csz / isz - 1
        · rw [hie, setNext_same, if_pos rfl, ← hhead]
          exact hh.symm
        · rw [setNext_other _ _ _ _ (by
            intro hcontra
            have hcancel := Nat.add_left_cancel hcontra
            exact hie (Nat.eq_of_mul_eq_mul_right h1 hcancel)),
            chunkWrites_char isz csz p.fresh none p.next h1 i hi, if_neg hie, if_neg hie]
      have hagree : ∀ a ∈ L, setNext (applyWrites p.next (chunkWrites isz csz p.fresh none))
          (p.fresh + (csz / isz - 1) * isz) (some h0) a = p.next a := by
        intro a ha
        have halt := hlt a ha
        rw [setNext_other _ _ _ _ (by omega)]
        exact chunkWrites_below isz csz p.fresh none p.next a halt
      have hE' : encodesB (setNext (applyWrites p.next (chunkWrites isz csz p.fresh none))
          (p.fresh + (csz / isz - 1) * isz) (some h0)) L.head? L = true := by
        rw [encodesB_congr p.next _ L.head? L hagree, ← hhead]
        exact hE
      have hchain := encodesB_chunk_chain isz csz p.fresh
        (setNext (applyWrites p.next (chunkWrites isz csz p.fresh none))
          (p.fresh + (csz / isz - 1) * isz) (some h0)) L.head? L hchar rfl hE'
        (csz / isz) 0 (by omega)
      rw [slotsFrom_head_append isz p.fresh _ 0 L hm,
        show p.fresh + 0 * isz = p.fresh by ring] at hchain
      rw [chunkSlots_eq_slotsFrom, hnextN, hheadN]
      exact hchain

theorem alloc_new_chunk_splice_witness :
    (1 ≤ 8 ∧ 8 ≤ 32 ∧
     encodesB (Pool.mk [] (some 5) (fun _ => none) 100).next
       (Pool.mk [] (some 5) (fun _ => none) 100).head [5] = true ∧
     (∀ a ∈ [5], a < (Pool.mk [] (some 5) (fun _ => none) 100).fresh)) ∧
    ((alloc_new_chunk 8 32 (Pool.mk [] (some 5) (fun _ => none) 100)).chunks = [] ++ [100] ∧
     (alloc_new_chunk 8 32 (Pool.mk [] (some 5) (fun _ => none) 100)).head = some 100 ∧
     (chunkSlots 8 32 100).length = 32 / 8 ∧
     (alloc_new_chunk 8 32 (Pool.mk [] (some 5) (fun _ => none) 100)).next
       (100 + (32 / 8 - 1) * 8) = (Pool.mk [] (some 5) (fun _ => none) 100).head ∧
     encodesB (alloc_new_chunk 8 32 (Pool.mk [] (some 5) (fun _ => none) 100)).next
       (alloc_new_chunk 8 32 (Pool.mk [] (some 5) (fun _ => none) 100)).head
       (chunkSlots 8 32 100 ++ [5]) = true) :=
  ⟨⟨by decide, by decide, by decide, by decide⟩,
   alloc_new_chunk_splice 8 32 (Pool.mk [] (some 5) (fun _ => none) 100) [5]
     (by decide) (by decide) (by decide) (by decide)⟩

/-- Claim C7. For a pool whose chunk byte ranges are pairwise disjoint (as heap
allocation guarantees) and under the template constraints, debug validation
accepts `q` iff `q` lies in some owned chunk at an offset that is an exact
multiple of `item_size`; in particular an address handed out by `alloc` (a
slot of some chunk) validates, that address plus one byte fails, and any
foreign address (in no chunk's range) fails. -/
theorem validator_correct (isz csz : Nat) (p : Pool)
    (h2i : 2 ≤ isz) (h2 : isz ≤ csz)
    (hdisj : p.chunks.Pairwise (fun c d => c + csz ≤ d ∨ d + csz ≤ c)) :
    (∀ q, debug_check_free_align isz csz p q = true
        ↔ ∃ c ∈ p.chunks, c ≤ q ∧ q < c + csz ∧ (q - c) % isz = 0) ∧
    (∀ a c i, p.head = some a → c ∈ p.chunks → i < csz / isz → a = c + i * isz →
       (alloc isz csz false p).2 = some a ∧
       debug_check_free_align isz csz p a = true ∧
       debug_check_free_align isz csz p (a + 1) = false) ∧
    (∀ q, (∀ c ∈ p.chunks, ¬ (c ≤ q ∧ q < c + csz)) →
       debug_check_free_align isz csz p q = false) := by
  have hiff : ∀ q, debug_check_free_align isz csz p q = true
      ↔ ∃ c ∈ p.chunks, c ≤ q ∧ q < c + csz ∧ (q - c) % isz = 0 := by
    intro q
    unfold debug_check_free_align
    rw [List.any_eq_true]
    constructor
    · rintro ⟨c, hc, hp⟩
      simp only [Bool.and_eq_true, decide_eq_true_eq] at hp
      exact ⟨c, hc, hp.1.1, hp.1.2, hp.2⟩
    · rintro ⟨c, hc, hq1, hq2, hq3⟩
      exact ⟨c, hc, by simp [hq1, hq2, hq3]⟩
  refine ⟨hiff, ?_, ?_⟩
  · intro a c i hhead hc hi ha
    have hsucc : (i + 1) * isz = i * isz + isz := Nat.succ_mul i isz
    have hle : (i + 1) * isz ≤ (csz / isz) * isz := Nat.mul_le_mul_right _ hi
    have hdm : (csz / isz) * isz ≤ csz := Nat.div_mul_le_self csz isz
    refine ⟨by simp [alloc, hhead], ?_, ?_⟩
    · apply (hiff a).mpr
      refine ⟨c, hc, by omega, by omega, ?_⟩
      rw [show a - c = i * isz by omega]
      exact Nat.mul_mod_left i isz
    · unfold debug_check_free_align
      rw [List.any_eq_false]
      intro d hd
      simp only [Bool.and_eq_true, decide_eq_true_eq, not_and]
      intro hrange
      by_cases hdc : d = c
      · subst hdc
        rw [show a + 1 - d = i * isz + 1 by omega]
        intro hmod
        rw [show i * isz + 1 = 1 + i * isz by omega, Nat.add_mul_mod_self_right,
          Nat.mod_eq_of_lt (by omega)] at hmod
        omega
      · have hsymm : Symmetric (fun c d : Nat => c + csz ≤ d ∨ d + csz ≤ c) :=
          fun x y hxy => hxy.symm
        have hR := hdisj.forall hsymm hc hd (fun he => hdc he.symm)
        rcases hR with hR | hR
        · omega
        · omega
  · intro q hq
    unfold debug_check_free_align
    rw [List.any_eq_false]
    intro d hd
    simp only [Bool.and_eq_true, decide_eq_true_eq, not_and]
    intro h1d _
    exact absurd h1d (hq d hd)

theorem validator_correct_witness :
    (2 ≤ 8 ∧ 8 ≤ 32 ∧
     (mkPool 8 32 2 100).chunks.Pairwise (fun c d => c + 32 ≤ d ∨ d + 32 ≤ c)) ∧
    ((∀ q, debug_check_free_align 8 32 (mkPool 8 32 2 100) q = true
        ↔ ∃ c ∈ (mkPool 8 32 2 100).chunks, c ≤ q ∧ q < c + 32 ∧ (q - c) % 8 = 0) ∧
     (∀ a c i, (mkPool 8 32 2 100).head = some a → c ∈ (mkPool 8 32 2 100).chunks →
        i < 32 / 8 → a = c + i * 8 →
        (alloc 8 32 false (mkPool 8 32 2 100)).2 = some a ∧
        debug_check_free_align 8 32 (mkPool 8 32 2 100) a = true ∧
        debug_check_free_align 8 32 (mkPool 8 32 2 100) (a + 1) = false) ∧
     (∀ q, (∀ c ∈ (mkPool 8 32 2 100).chunks, ¬ (c ≤ q ∧ q < c + 32)) →
        debug_check_free_align 8 32 (mkPool 8 32 2 100) q = false)) :=
  ⟨⟨by decide, by decide, by decide⟩,
   validator_correct 8 32 (mkPool 8 32 2 100) (by decide) (by decide) (by decide)⟩

/-- Claim C10. Whenever `chunk_size` is not an exact multiple of `item_size`,
debug validation accepts the address `chunk_base + ⌊chunk_size/item_size⌋ *
item_size` of any owned chunk, even though that address lies strictly inside
the chunk's trailing slack bytes and differs from every one of the chunk's
`⌊chunk_size/item_size⌋` slot addresses (the only addresses `alloc` hands
out). -/
theorem validator_slack_accept (isz csz : Nat) (p : Pool) (c : Nat)
    (h1 : 1 ≤ isz) (hc : c ∈ p.chunks) (hmod : csz % isz ≠ 0) :
    debug_check_free_align isz csz p (c + (csz / isz) * isz) = true ∧
    (csz / isz) * isz < csz ∧
    (∀ i, i < csz / isz → c + (csz / isz) * isz ≠ c + i * isz) := by
  have hlt : (csz / isz) * isz < csz := by
    have hid := Nat.mod_add_div csz isz
    have hcomm : isz * (csz / isz) = (csz / isz) * isz := Nat.mul_comm _ _
    omega
  refine ⟨?_, hlt, ?_⟩
  · unfold debug_check_free_align
    rw [List.any_eq_true]
    refine ⟨c, hc, ?_⟩
    simp only [Bool.and_eq_true, decide_eq_true_eq]
    refine ⟨⟨by omega, by omega⟩, ?_⟩
    rw [show c + (csz / isz) * isz - c = (csz / isz) * isz by omega]
    exact Nat.mul_mod_left _ _
  · intro i hi
    have hsucc : (i + 1) * isz = i * isz + isz := Nat.succ_mul i isz
    have hle : (i + 1) * isz ≤ (csz / isz) * isz := Nat.mul_le_mul_right _ hi
    omega

theorem validator_slack_accept_witness :
    (1 ≤ 8 ∧ 100 ∈ (mkPool 8 36 1 100).chunks ∧ 36 % 8 ≠ 0) ∧
    (debug_check_free_align 8 36 (mkPool 8 36 1 100) (100 + (36 / 8) * 8) = true ∧
     (36 / 8) * 8 < 36 ∧
     (∀ i, i < 36 / 8 → 100 + (36 / 8) * 8 ≠ 100 + i * 8)) :=
  ⟨⟨by decide, by decide, by decide⟩,
   validator_slack_accept 8 36 (mkPool 8 36 1 100) 100 (by decide) (by decide) (by decide)⟩

end toylib
